import Mathlib

/-!
A shallow embedding of the byte-level BPE tokenizer of this repository
(`regex_special_tokenizer.ts` and the `BasicTokenizer` / `Trainer` variants).

Modelling conventions:
* Text is modelled at the UTF-8 byte level: a string is its list of bytes
  (`TextEncoder` / `TextDecoder` are the identity at this level, and every
  counterexample below is pure ASCII, one byte per character).
* A JS `Map` is modelled as an insertion-ordered association list:
  `set` keeps the position of an existing key and appends a fresh key,
  exactly as ECMAScript specifies for `Map` iteration order.
* `Array.prototype.sort` is guaranteed stable by ECMAScript; it is modelled
  by a stable insertion sort (`sortStable`).
* The configurable pre-tokenization regex is modelled as an abstract
  chunking function `split : Bytes → List Bytes`; the default pattern
  `/\S+/g` (maximal runs of non-whitespace) is modelled concretely by
  `defaultChunks` over the ASCII whitespace bytes.
* JS 32-bit coercion in `(a << 16) | b` is modelled by working mod `2 ^ 32`
  (a packed key is only ever used for equality, and `n % 2 ^ 32` identifies
  exactly the JS int32 values).
* Thrown exceptions are modelled with `Except String`; the `while (true)`
  loops are modelled with an explicit fuel that is proved sufficient.
-/

namespace BPE

abbrev Token := Nat

abbrev Bytes := List Nat

/-- the `pack` helper: `(a << 16) | b` on JS 32-bit integers. -/
def pack (a b : Nat) : Nat := (((a % 2 ^ 32) <<< 16) % 2 ^ 32) ||| (b % 2 ^ 32)

/-- an entry of the `Stats` map (`{ packed, count, arr }`). -/
structure StatsValue where
  packed : Nat
  count : Nat
  arr : Token × Token
deriving DecidableEq

/-- JS `Map.prototype.set`: update in place keeping the position of an
existing key, append a fresh key. -/
def mapSet {κ ν : Type} [DecidableEq κ] : List (κ × ν) → κ → ν → List (κ × ν)
  | [], k, v => [(k, v)]
  | e :: rest, k, v => if e.1 = k then (k, v) :: rest else e :: mapSet rest k v

/-- JS `Map.prototype.get` (first entry with the key). -/
def mapGet {κ ν : Type} [DecidableEq κ] (m : List (κ × ν)) (k : κ) : Option ν :=
  (m.find? (fun e => decide (e.1 = k))).map Prod.snd

/-- the `Stats` map keyed by `packed`, with JS `Map` set semantics. -/
def statsSet : List StatsValue → StatsValue → List StatsValue
  | [], v => [v]
  | w :: rest, v => if w.packed = v.packed then v :: rest else w :: statsSet rest v

/-- lookup in the `Stats` map by packed key. -/
def statsGet (counts : List StatsValue) (key : Nat) : Option StatsValue :=
  counts.find? (fun v => decide (v.packed = key))

/-- one loop iteration of `get_stats`: `counts.set(packed, { packed, count: (counts.get(packed)?.count ?? 0) + 1, arr })`. -/
def statsAdd (counts : List StatsValue) (a b : Token) : List StatsValue :=
  statsSet counts ⟨pack a b, ((statsGet counts (pack a b)).map StatsValue.count).getD 0 + 1, (a, b)⟩

/-- `RegexTokenizer.get_stats` (identical in every variant of the source):
the loop `for (let i = 0; i < ids.length - 2; i++)` over adjacent pairs.
Note the bound really is `ids.length - 2` in the source. -/
def get_stats (ids : List Token) (counts : List StatsValue) : List StatsValue :=
  (List.range (ids.length - 2)).foldl
    (fun c i => statsAdd c (ids.getD i 0) (ids.getD (i + 1) 0)) counts

/-- insertion step of the stable sort. -/
def insertSorted {α : Type} (le : α → α → Bool) (a : α) : List α → List α
  | [] => [a]
  | b :: rest => if le a b then a :: b :: rest else b :: insertSorted le a rest

/-- a stable sort: ECMAScript requires `Array.prototype.sort` to be stable,
so any stable sorting algorithm is a faithful model of it. -/
def sortStable {α : Type} (le : α → α → Bool) (l : List α) : List α :=
  l.foldr (insertSorted le) []

/-- `get_top_pairs`: stable sort descending by count, take the first `max`. -/
def get_top_pairs (counts : List StatsValue) (max : Nat) : List StatsValue :=
  (sortStable (fun a b => decide (b.count ≤ a.count)) counts).take max

/-- the body of `RegexTokenizer.replace`, modelling the index loop
`for (let i = 0; i < tokens.length; )` with its `i += 2` / `i += 1`
advancement; `fuel` bounds the number of iterations. -/
def replaceAux (tokens : List Token) (p : Token × Token) (r : Token) : Nat → Nat → List Token
  | 0, _ => []
  | fuel + 1, i =>
    if i < tokens.length then
      if i < tokens.length - 1 ∧ tokens.getD i 0 = p.1 ∧ tokens.getD (i + 1) 0 = p.2 then
        r :: replaceAux tokens p r fuel (i + 2)
      else
        tokens.getD i 0 :: replaceAux tokens p r fuel (i + 1)
    else []

/-- `RegexTokenizer.replace` (same code in all variants): the loop runs at
most `tokens.length` iterations since `i` grows by at least one. -/
def replace (tokens : List Token) (p : Token × Token) (r : Token) : List Token :=
  replaceAux tokens p r tokens.length 0

/-- the same single left-to-right non-overlapping pass, phrased as the spec
phrases it: at each position, if the next two tokens equal the pair they
are replaced and the scan advances past both. Proved equal to `replace`. -/
def replaceOnePass (p : Token × Token) (r : Token) : List Token → List Token
  | [] => []
  | [a] => [a]
  | a :: b :: rest =>
    if a = p.1 ∧ b = p.2 then r :: replaceOnePass p r rest
    else a :: replaceOnePass p r (b :: rest)

abbrev Merge := Nat × (Token × Token)

/-- `get_unique_pairs`: the `arr` fields of `get_stats(ids)` in map order. -/
def get_unique_pairs (ids : List Token) : List (Token × Token) :=
  (get_stats ids []).map StatsValue.arr

/-- the nested loops of `encode_ordinary` that collect every (pair, merge)
match: outer loop over the discovered pairs, inner loop over the merges. -/
def matchedMerges (merges : List Merge) (pairs : List (Token × Token)) : List Merge :=
  pairs.foldl
    (fun acc p => acc ++ merges.filter (fun m => decide (m.2.1 = p.1) && decide (m.2.2 = p.2))) []

/-- `merges.sort((a, b) => a.idx - b.idx)[0]`: the lowest-index match. -/
def lowestMerge (merges : List Merge) (tokens : List Token) : Option Merge :=
  (sortStable (fun a b => decide (a.1 ≤ b.1)) (matchedMerges merges (get_unique_pairs tokens))).head?

/-- the `while (true)` loop of `encode_ordinary`, with fuel; one replacement
strictly shortens the chunk, so `tokens.length` fuel is enough
(`encodeLoop_fixpoint` below proves the fixpoint is reached). -/
def encodeLoop (merges : List Merge) : Nat → List Token → List Token
  | 0, tokens => tokens
  | fuel + 1, tokens =>
    match lowestMerge merges tokens with
    | none => tokens
    | some m => encodeLoop merges fuel (replace tokens m.2 m.1)

/-- `RegexTokenizer.encode_ordinary`: chunk the text, then greedily apply
the learned merge with the lowest index until no discovered pair matches;
chunks of length below two are returned unchanged. -/
def encode_ordinary (split : Bytes → List Bytes) (merges : List Merge) (text : Bytes) : List (List Token) :=
  (split text).map fun tokens =>
    if tokens.length < 2 then tokens else encodeLoop merges tokens.length tokens

/-- base vocabulary: entries `0 … 255` mapped to their one-byte sequence. -/
def baseVocab : List (Nat × Bytes) := (List.range 256).map fun i => (i, [i])

/-- the mutable state of `RegexTokenizer.train`: learned merges, vocabulary,
and the current (partially merged) token chunks. -/
structure TrainState where
  merges : List Merge
  vocab : List (Nat × Bytes)
  chunks : List (List Token)
deriving DecidableEq

/-- the training loop body of `RegexTokenizer.train`: recompute the stats
over all chunks, pick `get_top_pairs(stats, 1)[0]`, stop when its count is
below two, otherwise record the merge, extend the vocabulary, and rewrite
every chunk. Reading `.count` of an undefined top (empty stats) and the
non-null vocabulary assertions are modelled as errors. -/
def trainLoop : Nat → Nat → TrainState → Except String TrainState
  | 0, _, st => .ok st
  | fuel + 1, idx, st =>
    match get_top_pairs (st.chunks.foldl (fun c chunk => get_stats chunk c) []) 1 with
    | [] => .error "TypeError: Cannot read properties of undefined (reading count)"
    | top :: _ =>
      if top.count < 2 then .ok st
      else
        match mapGet st.vocab top.arr.1, mapGet st.vocab top.arr.2 with
        | some left, some right =>
          trainLoop fuel (idx + 1)
            { merges := st.merges ++ [(idx, top.arr)]
              vocab := mapSet st.vocab idx (left ++ right)
              chunks := st.chunks.map fun c => replace c top.arr idx }
        | _, _ => .error "TypeError: undefined vocabulary entry for pair element"

/-- `RegexTokenizer.train`: reset the state, chunk the text, run up to
`vocab_size - 256` merge iterations. -/
def train (split : Bytes → List Bytes) (vocab_size : Nat) (text : Bytes) : Except String TrainState :=
  trainLoop (vocab_size - 256) 256 { merges := [], vocab := baseVocab, chunks := split text }

/-- token resolution in `RegexTokenizer.decode`: vocabulary first, then the
inverse special-token map, otherwise the unknown-token error. -/
def resolveToken (vocab ist : List (Nat × Bytes)) (t : Token) : Except String Bytes :=
  match mapGet vocab t with
  | some bs => .ok bs
  | none =>
    match mapGet ist t with
    | some bs => .ok bs
    | none => .error "Token not found in vocabulary during decoding."

/-- decoding of one chunk: concatenated byte sequences of its tokens,
stopping at the first unknown token as the thrown error does. -/
def decodeChunk (vocab ist : List (Nat × Bytes)) : List Token → Except String Bytes
  | [] => .ok []
  | t :: rest =>
    match resolveToken vocab ist t with
    | .ok b =>
      match decodeChunk vocab ist rest with
      | .ok r => .ok (b ++ r)
      | .error e => .error e
    | .error e => .error e

/-- `RegexTokenizer.decode`: per-chunk byte sequences, flattened in order. -/
def decode (vocab ist : List (Nat × Bytes)) : List (List Token) → Except String Bytes
  | [] => .ok []
  | c :: rest =>
    match decodeChunk vocab ist c with
    | .ok b =>
      match decode vocab ist rest with
      | .ok r => .ok (b ++ r)
      | .error e => .error e
    | .error e => .error e

/-- the precomputed-vocabulary decode of the `BasicTokenizer` variant in
`testing.ts` (no special tokens: vocabulary lookup only). -/
def decodeVocab (vocab : List (Nat × Bytes)) : List Token → Except String Bytes
  | [] => .ok []
  | t :: rest =>
    match mapGet vocab t with
    | some bs =>
      match decodeVocab vocab rest with
      | .ok r => .ok (bs ++ r)
      | .error e => .error e
    | none => .error "Token not found in vocabulary during decoding."

/-- one pass of the reverse-merge-splicing decode: the source iterates the
array downward and splices `merge[1]` over each index holding `merge[0]`;
an inserted pair is never re-inspected within the pass (the loop continues
below the splice point), so the pass expands each element independently. -/
def spliceExpand (idx : Nat) (p : Token × Token) : List Token → List Token
  | [] => []
  | t :: rest => (if t = idx then [p.1, p.2] else [t]) ++ spliceExpand idx p rest

/-- the reverse-merge-splicing decode of `BasicTokenizer.decode` in
`src/unnamed/part_001`: one splice pass per merge, newest merge first
(`merges.toReversed()`), i.e. a right fold over the merge list. -/
def spliceDecode (merges : List Merge) (tokens : List Token) : List Token :=
  merges.foldr (fun m ts => spliceExpand m.1 m.2 ts) tokens

/-- ASCII whitespace, the bytes matched by `\s` on ASCII text. -/
def isWS (b : Nat) : Bool := b == 9 || b == 10 || b == 11 || b == 12 || b == 13 || b == 32

/-- accumulator-based scan producing maximal runs of non-whitespace. -/
def chunksAux : List Nat → Bytes → List Bytes
  | cur, [] => if cur.isEmpty then [] else [cur.reverse]
  | cur, b :: rest =>
    if isWS b then
      if cur.isEmpty then chunksAux [] rest else cur.reverse :: chunksAux [] rest
    else chunksAux (b :: cur) rest

/-- the default pre-tokenization pattern `/\S+/g`: all maximal runs of
non-whitespace characters, in order (faithful for ASCII text). -/
def defaultChunks (text : Bytes) : List Bytes := chunksAux [] text

/-- byte sequence of an ASCII string literal. -/
def strBytes (s : String) : Bytes := s.data.map Char.toNat

/-- the `DEFAULT_ALLOWED_SPECIAL` table, in insertion order. -/
def DEFAULT_ALLOWED_SPECIAL : List (Bytes × Nat) :=
  [(strBytes "<|endoftext|>", 100257),
   (strBytes "<|fim_prefix|>", 100258),
   (strBytes "<|fim_middle|>", 100259),
   (strBytes "<|fim_suffix|>", 100260),
   (strBytes "<|endofprompt|>", 100276)]

/-- the special-token state of a `RegexTokenizer`: the forward map
`#special_tokens` and the inverse map `#inverse_special_tokens`. -/
structure SpecialState where
  special : List (Bytes × Nat)
  ist : List (Nat × Bytes)
deriving DecidableEq

/-- `register_special_tokens`: replaces the forward map, then `set`s each
inverted entry into the existing inverse map. The source never clears the
inverse map, exactly as modelled here. -/
def register_special_tokens (st : SpecialState) (tokens : List (Bytes × Nat)) : SpecialState :=
  { special := tokens
    ist := tokens.foldl (fun inv tv => mapSet inv tv.2 tv.1) st.ist }

/-- first special literal (in map order) matching at the current position:
JS regex alternation tries the alternatives in pattern order. -/
def findLit (lits : List Bytes) (text : Bytes) : Option Bytes :=
  lits.find? (fun l => l.isPrefixOf text)

/-- scanning loop of `text.split(regex)` for the capturing alternation of
the escaped special literals: left-to-right scan, separators included.
`fuel` bounds the scan; `text.length + 1` is enough for non-empty
literals. -/
def splitSpecialAux (lits : List Bytes) : Nat → List Nat → Bytes → List Bytes
  | 0, acc, rest => [acc.reverse ++ rest]
  | _ + 1, acc, [] => [acc.reverse]
  | fuel + 1, acc, c :: rest =>
    match findLit lits (c :: rest) with
    | some l => acc.reverse :: l :: splitSpecialAux lits fuel [] ((c :: rest).drop l.length)
    | none => splitSpecialAux lits fuel (c :: acc) rest

/-- `text.split(new RegExp(pattern, g))` with the special-literal pattern. -/
def splitSpecial (lits : List Bytes) (text : Bytes) : List Bytes :=
  splitSpecialAux lits (text.length + 1) [] text

/-- JS `String.prototype.includes` at the byte level. -/
def hasSub (needle : Bytes) : Bytes → Bool
  | [] => needle.isEmpty
  | c :: rest => needle.isPrefixOf (c :: rest) || hasSub needle rest

/-- the `allowed_special` parameter of `encode`, as a closed variant. -/
inductive AllowedSpecial where
  | all
  | none
  | none_raise
  | explicit (names : List Bytes)

/-- the loop of the explicit-set mode: look each name up in the registered
table, collecting a fresh map, failing on an unregistered name. -/
def buildExplicit (registered : List (Bytes × Nat)) : List (Bytes × Nat) → List Bytes → Except String (List (Bytes × Nat))
  | acc, [] => .ok acc
  | acc, name :: rest =>
    match mapGet registered name with
    | some v => buildExplicit registered (mapSet acc name v) rest
    | none => .error "Special token not found in tokenizers special tokens"

/-- the mode dispatch at the top of `encode`: which special tokens are
active, or an error for `none_raise` with a present literal and for an
unregistered name in an explicit set. -/
def resolveAllowed (st : SpecialState) (mode : AllowedSpecial) (text : Bytes) : Except String (List (Bytes × Nat)) :=
  match mode with
  | .all => .ok st.special
  | .none => .ok []
  | .none_raise =>
    if st.special.any (fun tv => hasSub tv.1 text) then
      .error "Special token found in text, but allowed_special is none_raise"
    else .ok []
  | .explicit names => buildExplicit st.special [] names

/-- the part loop of `encode`: special parts become the single reserved id,
non-empty ordinary parts go through `encode_ordinary`, empty parts are
dropped. -/
def encodeParts (split : Bytes → List Bytes) (merges : List Merge) (special : List (Bytes × Nat)) : List Bytes → List (List Token)
  | [] => []
  | part :: rest =>
    match mapGet special part with
    | some tid => [tid] :: encodeParts split merges special rest
    | none =>
      if 0 < part.length then
        encode_ordinary split merges part ++ encodeParts split merges special rest
      else encodeParts split merges special rest

/-- `RegexTokenizer.encode`: resolve the mode, fall back to
`encode_ordinary` when no special token is active, otherwise split on the
special literals and encode the parts. -/
def encode (split : Bytes → List Bytes) (merges : List Merge) (st : SpecialState) (mode : AllowedSpecial) (text : Bytes) : Except String (List (List Token)) :=
  match resolveAllowed st mode text with
  | .error e => .error e
  | .ok special =>
    if special.isEmpty then
      .ok (encode_ordinary split merges text)
    else
      .ok (encodeParts split merges special (splitSpecial (special.map Prod.fst) text))

/-! ## Association-list map lemmas -/

theorem mapGet_nil {κ ν : Type} [DecidableEq κ] (k : κ) : mapGet ([] : List (κ × ν)) k = none := rfl

theorem mapGet_cons {κ ν : Type} [DecidableEq κ] (e : κ × ν) (rest : List (κ × ν)) (k : κ) :
    mapGet (e :: rest) k = if e.1 = k then some e.2 else mapGet rest k := by
  by_cases h : e.1 = k
  · simp [mapGet, List.find?_cons_of_pos, h]
  · simp [mapGet, List.find?_cons_of_neg, h]

theorem mapGet_mapSet {κ ν : Type} [DecidableEq κ] (m : List (κ × ν)) (k k2 : κ) (v : ν) :
    mapGet (mapSet m k v) k2 = if k2 = k then some v else mapGet m k2 := by
  induction m with
  | nil =>
    rw [show mapSet ([] : List (κ × ν)) k v = [(k, v)] from rfl, mapGet_cons, mapGet_nil]
    by_cases h : k = k2
    · subst h; simp
    · simp [h, Ne.symm h]
  | cons e rest ih =>
    by_cases he : e.1 = k
    · rw [show mapSet (e :: rest) k v = (k, v) :: rest from by simp [mapSet, he],
        mapGet_cons, mapGet_cons]
      by_cases h : k2 = k
      · subst h; simp
      · have hek2 : ¬ e.1 = k2 := by rw [he]; exact Ne.symm h
        simp [h, Ne.symm h, hek2]
    · rw [show mapSet (e :: rest) k v = e :: mapSet rest k v from by simp [mapSet, he],
        mapGet_cons, mapGet_cons, ih]
      by_cases h : k2 = k
      · subst h
        simp [he]
      · simp [h]

theorem mapGet_append {κ ν : Type} [DecidableEq κ] (m1 m2 : List (κ × ν)) (k : κ) :
    mapGet (m1 ++ m2) k = ((m1.find? (fun e => decide (e.1 = k))).map Prod.snd).or (mapGet m2 k) := by
  cases h : m1.find? (fun e => decide (e.1 = k)) <;>
    simp [mapGet, List.find?_append, h, Option.or]

theorem mem_mapSet {κ ν : Type} [DecidableEq κ] (m : List (κ × ν)) (k : κ) (v : ν) :
    ∀ e ∈ mapSet m k v, e = (k, v) ∨ e ∈ m := by
  induction m with
  | nil => simp [mapSet]
  | cons w rest ih =>
    intro e he
    by_cases hw : w.1 = k
    · simp only [mapSet, hw, if_true, List.mem_cons] at he
      rcases he with h | h
      · exact Or.inl h
      · exact Or.inr (List.mem_cons_of_mem _ h)
    · simp only [mapSet, hw, if_false, List.mem_cons] at he
      rcases he with h | h
      · exact Or.inr (h ▸ List.mem_cons_self _ _)
      · rcases ih e h with h2 | h2
        · exact Or.inl h2
        · exact Or.inr (List.mem_cons_of_mem _ h2)

theorem mapGet_isSome_of_mem {κ ν : Type} [DecidableEq κ] (m : List (κ × ν)) (e : κ × ν)
    (he : e ∈ m) : (mapGet m e.1).isSome := by
  induction m with
  | nil => cases he
  | cons w rest ih =>
    rcases List.mem_cons.mp he with h | h
    · subst h
      simp [mapGet_cons]
    · rw [mapGet_cons]
      by_cases hw : w.1 = e.1 <;> simp [hw, ih h]

theorem mapGet_baseVocab (k : Nat) :
    mapGet baseVocab k = if k < 256 then some [k] else none := by
  have general : ∀ n k2, mapGet ((List.range n).map fun i => (i, [i])) k2
      = if k2 < n then some [k2] else none := by
    intro n
    induction n with
    | zero => intro k2; simp [mapGet]
    | succ n ih =>
      intro k2
      rw [List.range_succ, List.map_append, mapGet_append]
      have hfind : (((List.range n).map fun i => (i, [i])).find? (fun e => decide (e.1 = k2))).map Prod.snd
          = mapGet ((List.range n).map fun i => (i, [i])) k2 := rfl
      rw [hfind, ih k2]
      by_cases h : k2 < n
      · simp [h, Nat.lt_succ_of_lt h]
      · by_cases h2 : k2 = n
        · subst h2
          simp [h, List.map_cons, mapGet_cons, Nat.lt_succ_self]
        · have h3 : ¬ k2 < n + 1 := by omega
          have h4 : ¬ ((n : Nat) = k2) := fun hh => h2 hh.symm
          simp [h, h3, List.map_cons, mapGet_cons, h4, mapGet_nil]
  exact general 256 k

/-! ## The replace loop and its one-pass characterisation -/

theorem replaceAux_eq_onePass (p : Token × Token) (r : Token) :
    ∀ (fuel : Nat) (tokens : List Token) (i : Nat), tokens.length ≤ i + fuel →
      replaceAux tokens p r fuel i = replaceOnePass p r (tokens.drop i) := by
  intro fuel
  induction fuel with
  | zero =>
    intro tokens i h
    rw [List.drop_eq_nil_of_le (by omega)]
    rfl
  | succ fuel ih =>
    intro tokens i h
    by_cases hi : i < tokens.length
    · have hdrop : tokens.drop i = tokens[i] :: tokens.drop (i + 1) :=
        List.drop_eq_getElem_cons hi
      by_cases hc : i < tokens.length - 1 ∧ tokens.getD i 0 = p.1 ∧ tokens.getD (i + 1) 0 = p.2
      · have hi1 : i + 1 < tokens.length := by omega
        have hdrop2 : tokens.drop (i + 1) = tokens[i + 1] :: tokens.drop (i + 2) :=
          List.drop_eq_getElem_cons hi1
        have h1 : tokens[i] = p.1 := by
          rw [← List.getD_eq_getElem tokens 0 hi]; exact hc.2.1
        have h2 : tokens[i + 1] = p.2 := by
          rw [← List.getD_eq_getElem tokens 0 hi1]; exact hc.2.2
        rw [replaceAux, if_pos hi, if_pos hc, hdrop, hdrop2, h1, h2, replaceOnePass,
          if_pos ⟨rfl, rfl⟩, ih tokens (i + 2) (by omega)]
      · rw [replaceAux, if_pos hi, if_neg hc, ih tokens (i + 1) (by omega), hdrop]
        cases hdrop2 : tokens.drop (i + 1) with
        | nil =>
          rw [List.getD_eq_getElem tokens 0 hi]
          simp [replaceOnePass]
        | cons b rest2 =>
          have hi1 : i + 1 < tokens.length := by
            by_contra hle
            rw [List.drop_eq_nil_of_le (by omega)] at hdrop2
            cases hdrop2
          have hb : b = tokens[i + 1] := by
            rw [List.drop_eq_getElem_cons hi1] at hdrop2
            exact (List.cons.injEq _ _ _ _ ▸ hdrop2).1.symm
          have hcond : ¬ (tokens[i] = p.1 ∧ b = p.2) := by
            intro hcc
            apply hc
            refine ⟨by omega, ?_, ?_⟩
            · rw [List.getD_eq_getElem tokens 0 hi]; exact hcc.1
            · rw [List.getD_eq_getElem tokens 0 hi1]; exact hb ▸ hcc.2
          rw [replaceOnePass, if_neg hcond]
          congr 1
          rw [List.getD_eq_getElem tokens 0 hi]
    · rw [List.drop_eq_nil_of_le (by omega), replaceAux, if_neg hi]
      rfl

theorem replace_eq_onePass (tokens : List Token) (p : Token × Token) (r : Token) :
    replace tokens p r = replaceOnePass p r tokens := by
  have := replaceAux_eq_onePass p r tokens.length tokens 0 (by omega)
  simpa [replace] using this

theorem mem_replaceOnePass (p : Token × Token) (r : Token) :
    ∀ (l : List Token) (t : Token), t ∈ replaceOnePass p r l → t = r ∨ t ∈ l := by
  intro l
  induction l using replaceOnePass.induct p r with
  | case1 => simp [replaceOnePass]
  | case2 a => simp [replaceOnePass]
  | case3 a b rest hab ih =>
    intro t ht
    rw [replaceOnePass, if_pos hab] at ht
    rcases List.mem_cons.mp ht with h | h
    · exact Or.inl h
    · rcases ih t h with h2 | h2
      · exact Or.inl h2
      · exact Or.inr (by simp [h2])
  | case4 a b rest hab ih =>
    intro t ht
    rw [replaceOnePass, if_neg hab] at ht
    rcases List.mem_cons.mp ht with h | h
    · exact Or.inr (by simp [h])
    · rcases ih t h with h2 | h2
      · exact Or.inl h2
      · exact Or.inr (by simp [List.mem_cons.mp h2])

theorem length_replaceOnePass_le (p : Token × Token) (r : Token) :
    ∀ l : List Token, (replaceOnePass p r l).length ≤ l.length := by
  intro l
  induction l using replaceOnePass.induct p r with
  | case1 => simp [replaceOnePass]
  | case2 a => simp [replaceOnePass]
  | case3 a b rest hab ih =>
    rw [replaceOnePass, if_pos hab]
    simp only [List.length_cons]
    omega
  | case4 a b rest hab ih =>
    rw [replaceOnePass, if_neg hab]
    simp only [List.length_cons]
    simp only [List.length_cons] at ih
    omega

/-- adjacent occurrence of a pair at some index of the list. -/
def HasPair (p : Token × Token) (l : List Token) : Prop :=
  ∃ i, i + 1 < l.length ∧ l.getD i 0 = p.1 ∧ l.getD (i + 1) 0 = p.2

theorem length_replaceOnePass_lt (p : Token × Token) (r : Token) :
    ∀ l : List Token, HasPair p l → (replaceOnePass p r l).length < l.length := by
  intro l
  induction l using replaceOnePass.induct p r with
  | case1 =>
    rintro ⟨i, hi, -, -⟩
    simp at hi
  | case2 a =>
    rintro ⟨i, hi, -, -⟩
    simp only [List.length_cons, List.length_nil] at hi
    omega
  | case3 a b rest hab ih =>
    intro _
    rw [replaceOnePass, if_pos hab]
    have := length_replaceOnePass_le p r rest
    simp only [List.length_cons]
    omega
  | case4 a b rest hab ih =>
    rintro ⟨i, hi, h1, h2⟩
    rw [replaceOnePass, if_neg hab]
    have hbr : HasPair p (b :: rest) := by
      cases i with
      | zero => exact absurd ⟨h1, h2⟩ hab
      | succ j =>
        refine ⟨j, ?_, ?_, ?_⟩
        · simp only [List.length_cons] at hi ⊢; omega
        · simpa [List.getD_cons_succ] using h1
        · simpa [List.getD_cons_succ] using h2
    have := ih hbr
    simp only [List.length_cons] at this ⊢
    omega

/-! ## Stable sort: the head is the first element of maximal key -/

/-- maximum of a numeric key over a list (zero on the empty list). -/
def maxKey {α : Type} (f : α → Nat) (l : List α) : Nat :=
  l.foldr (fun v m => Nat.max (f v) m) 0

theorem maxKey_nil {α : Type} (f : α → Nat) : maxKey f [] = 0 := rfl

theorem maxKey_cons {α : Type} (f : α → Nat) (a : α) (l : List α) :
    maxKey f (a :: l) = Nat.max (f a) (maxKey f l) := rfl

theorem le_maxKey {α : Type} (f : α → Nat) {x : α} :
    ∀ {l : List α}, x ∈ l → f x ≤ maxKey f l := by
  intro l
  induction l with
  | nil => intro h; cases h
  | cons a rest ih =>
    intro h
    rw [maxKey_cons]
    rcases List.mem_cons.mp h with h2 | h2
    · subst h2; exact Nat.le_max_left _ _
    · exact Nat.le_trans (ih h2) (Nat.le_max_right _ _)

theorem maxKey_le {α : Type} (f : α → Nat) {c : Nat} :
    ∀ {l : List α}, (∀ x ∈ l, f x ≤ c) → maxKey f l ≤ c := by
  intro l
  induction l with
  | nil => intro _; simp [maxKey_nil]
  | cons a rest ih =>
    intro h
    rw [maxKey_cons]
    exact Nat.max_le.mpr ⟨h a (List.mem_cons_self _ _), ih fun x hx => h x (List.mem_cons_of_mem _ hx)⟩

theorem mem_insertSorted {α : Type} (le : α → α → Bool) (a : α) :
    ∀ (l : List α) (x : α), x ∈ insertSorted le a l ↔ x = a ∨ x ∈ l := by
  intro l
  induction l with
  | nil => intro x; simp [insertSorted]
  | cons b rest ih =>
    intro x
    rw [insertSorted]
    by_cases h : le a b
    · rw [if_pos h]
      simp only [List.mem_cons]
    · rw [if_neg h]
      simp only [List.mem_cons, ih x]
      tauto

theorem mem_sortStable {α : Type} (le : α → α → Bool) :
    ∀ (l : List α) (x : α), x ∈ sortStable le l ↔ x ∈ l := by
  intro l
  induction l with
  | nil => intro x; simp [sortStable]
  | cons a rest ih =>
    intro x
    show x ∈ insertSorted le a (sortStable le rest) ↔ _
    rw [mem_insertSorted, ih, List.mem_cons]

theorem length_insertSorted {α : Type} (le : α → α → Bool) (a : α) :
    ∀ l : List α, (insertSorted le a l).length = l.length + 1 := by
  intro l
  induction l with
  | nil => rfl
  | cons b rest ih =>
    rw [insertSorted]
    by_cases h : le a b <;> simp [h, ih]

theorem length_sortStable {α : Type} (le : α → α → Bool) :
    ∀ l : List α, (sortStable le l).length = l.length := by
  intro l
  induction l with
  | nil => rfl
  | cons a rest ih =>
    show (insertSorted le a (sortStable le rest)).length = _
    rw [length_insertSorted, ih, List.length_cons]

theorem sortStable_head_key_max {α : Type} (f : α → Nat) :
    ∀ (l : List α) (h : α) (rest : List α),
      sortStable (fun a b => decide (f b ≤ f a)) l = h :: rest → ∀ x ∈ l, f x ≤ f h := by
  intro l
  induction l with
  | nil => intro h rest heq; cases heq
  | cons a t ih =>
    intro h rest heq x hx
    have heq2 : insertSorted (fun a b => decide (f b ≤ f a)) a
        (sortStable (fun a b => decide (f b ≤ f a)) t) = h :: rest := heq
    cases hs : sortStable (fun a b => decide (f b ≤ f a)) t with
    | nil =>
      rw [hs] at heq2
      cases heq2
      rcases List.mem_cons.mp hx with h2 | h2
      · subst h2; exact Nat.le_refl _
      · have : (sortStable (fun a b => decide (f b ≤ f a)) t).length = 0 := by rw [hs]; rfl
        rw [length_sortStable] at this
        rw [List.length_eq_zero.mp this] at h2
        cases h2
    | cons h2 rest2 =>
      rw [hs, insertSorted] at heq2
      by_cases hle : f h2 ≤ f a
      · rw [if_pos (by simpa using hle)] at heq2
        obtain ⟨rfl, -⟩ := List.cons.injEq _ _ _ _ ▸ heq2
        rcases List.mem_cons.mp hx with hm | hm
        · subst hm; exact Nat.le_refl _
        · exact Nat.le_trans (ih h2 rest2 hs x hm) hle
      · rw [if_neg (by simpa using hle)] at heq2
        obtain ⟨rfl, -⟩ := List.cons.injEq _ _ _ _ ▸ heq2
        rcases List.mem_cons.mp hx with hm | hm
        · subst hm; omega
        · exact ih h2 rest2 hs x hm

theorem head_sortStable_eq_firstMax {α : Type} (f : α → Nat) :
    ∀ l : List α,
      (sortStable (fun a b => decide (f b ≤ f a)) l).head?
        = l.find? (fun v => decide (maxKey f l ≤ f v)) := by
  intro l
  induction l with
  | nil => rfl
  | cons a t ih =>
    show (insertSorted (fun a b => decide (f b ≤ f a)) a
        (sortStable (fun a b => decide (f b ≤ f a)) t)).head? = _
    cases hs : sortStable (fun a b => decide (f b ≤ f a)) t with
    | nil =>
      have ht : t = [] := by
        have : (sortStable (fun a b => decide (f b ≤ f a)) t).length = 0 := by rw [hs]; rfl
        rw [length_sortStable] at this
        exact List.length_eq_zero.mp this
      subst ht
      rw [insertSorted]
      rw [List.find?_cons_of_pos _ (by simp [maxKey_cons, maxKey_nil])]
      rfl
    | cons h rest =>
      have hmax : ∀ x ∈ t, f x ≤ f h := sortStable_head_key_max f t h rest hs
      have hmem : h ∈ t := by
        have : h ∈ sortStable (fun a b => decide (f b ≤ f a)) t := by
          rw [hs]; exact List.mem_cons_self _ _
        exact (mem_sortStable _ t h).mp this
      rw [insertSorted]
      by_cases hle : f h ≤ f a
      · rw [if_pos (by simpa using hle)]
        have hpred : maxKey f (a :: t) ≤ f a := by
          rw [maxKey_cons]
          exact Nat.max_le.mpr ⟨Nat.le_refl _, Nat.le_trans (maxKey_le f hmax) hle⟩
        rw [List.find?_cons_of_pos _ (by simpa using hpred)]
        rfl
      · rw [if_neg (by simpa using hle)]
        have hlt : f a < f h := by omega
        have hmk : maxKey f (a :: t) = maxKey f t := by
          rw [maxKey_cons]
          exact Nat.max_eq_right (Nat.le_trans (Nat.le_of_lt hlt) (le_maxKey f hmem))
        have hneg : ¬ (maxKey f (a :: t) ≤ f a) := by
          rw [hmk]
          have := le_maxKey f hmem
          omega
        rw [List.find?_cons_of_neg _ (by simpa using hneg), hmk]
        rw [show (h :: insertSorted (fun a b => decide (f b ≤ f a)) a rest).head? = some h from rfl]
        rw [← ih, hs]
        rfl

/-! ## Stats lemmas -/

/-- total number of pair observations recorded in a stats map. -/
def statsTotal (l : List StatsValue) : Nat := (l.map StatsValue.count).sum

theorem statsTotal_statsAdd (c : List StatsValue) (a b : Token) :
    statsTotal (statsAdd c a b) = statsTotal c + 1 := by
  unfold statsAdd
  induction c with
  | nil => rfl
  | cons w rest ih =>
    by_cases hw : w.packed = pack a b
    · rw [show statsGet (w :: rest) (pack a b) = some w from by
        simp [statsGet, List.find?_cons_of_pos, hw]]
      rw [show statsSet (w :: rest) ⟨pack a b, (some w |>.map StatsValue.count).getD 0 + 1, (a, b)⟩
          = ⟨pack a b, w.count + 1, (a, b)⟩ :: rest from by simp [statsSet, hw]]
      simp [statsTotal]
      omega
    · rw [show statsGet (w :: rest) (pack a b) = statsGet rest (pack a b) from by
        simp [statsGet, List.find?_cons_of_neg, hw]]
      rw [show statsSet (w :: rest) ⟨pack a b, ((statsGet rest (pack a b)).map StatsValue.count).getD 0 + 1, (a, b)⟩
          = w :: statsSet rest ⟨pack a b, ((statsGet rest (pack a b)).map StatsValue.count).getD 0 + 1, (a, b)⟩ from by
        simp [statsSet, hw]]
      simp only [statsTotal, List.map_cons, List.sum_cons] at ih ⊢
      omega

theorem statsTotal_get_stats (ids : List Token) (c : List StatsValue) :
    statsTotal (get_stats ids c) = statsTotal c + (ids.length - 2) := by
  unfold get_stats
  generalize ids.length - 2 = n
  induction n generalizing c with
  | zero => rfl
  | succ n ih =>
    rw [List.range_succ, List.foldl_append, List.foldl_cons, List.foldl_nil,
      statsTotal_statsAdd, ih]
    omega

theorem mem_statsSet (c : List StatsValue) (w : StatsValue) :
    ∀ v ∈ statsSet c w, v = w ∨ v ∈ c := by
  induction c with
  | nil => simp [statsSet]
  | cons u rest ih =>
    intro v hv
    by_cases hu : u.packed = w.packed
    · rw [show statsSet (u :: rest) w = w :: rest from by simp [statsSet, hu]] at hv
      rcases List.mem_cons.mp hv with h | h
      · exact Or.inl h
      · exact Or.inr (List.mem_cons_of_mem _ h)
    · rw [show statsSet (u :: rest) w = u :: statsSet rest w from by simp [statsSet, hu]] at hv
      rcases List.mem_cons.mp hv with h | h
      · exact Or.inr (h ▸ List.mem_cons_self _ _)
      · rcases ih v h with h2 | h2
        · exact Or.inl h2
        · exact Or.inr (List.mem_cons_of_mem _ h2)

theorem arr_mem_statsAdd (c : List StatsValue) (a b : Token) :
    ∀ v ∈ statsAdd c a b, v ∈ c ∨ v.arr = (a, b) := by
  intro v hv
  rcases mem_statsSet c _ v hv with h | h
  · exact Or.inr (by rw [h])
  · exact Or.inl h

theorem arr_mem_get_stats (ids : List Token) (c : List StatsValue) :
    ∀ v ∈ get_stats ids c,
      v ∈ c ∨ ∃ i, i + 1 < ids.length ∧ v.arr = (ids.getD i 0, ids.getD (i + 1) 0) := by
  unfold get_stats
  have general : ∀ (n : Nat) (c : List StatsValue) (v : StatsValue),
      v ∈ (List.range n).foldl (fun c i => statsAdd c (ids.getD i 0) (ids.getD (i + 1) 0)) c →
      v ∈ c ∨ ∃ i, i < n ∧ v.arr = (ids.getD i 0, ids.getD (i + 1) 0) := by
    intro n
    induction n with
    | zero => intro c v hv; exact Or.inl hv
    | succ n ih =>
      intro c v hv
      rw [List.range_succ, List.foldl_append, List.foldl_cons, List.foldl_nil] at hv
      rcases arr_mem_statsAdd _ _ _ v hv with h | h
      · rcases ih c v h with h2 | h2
        · exact Or.inl h2
        · obtain ⟨i, hi, harr⟩ := h2
          exact Or.inr ⟨i, Nat.lt_succ_of_lt hi, harr⟩
      · exact Or.inr ⟨n, Nat.lt_succ_self _, h⟩
  intro v hv
  rcases general (ids.length - 2) c v hv with h | h
  · exact Or.inl h
  · obtain ⟨i, hi, harr⟩ := h
    exact Or.inr ⟨i, by omega, harr⟩

theorem statsKeys_statsAdd (c : List StatsValue) (a b : Token) :
    (statsAdd c a b).map StatsValue.packed
      = if (statsGet c (pack a b)).isSome then c.map StatsValue.packed
        else c.map StatsValue.packed ++ [pack a b] := by
  unfold statsAdd
  induction c with
  | nil => rfl
  | cons w rest ih =>
    by_cases hw : w.packed = pack a b
    · rw [show statsGet (w :: rest) (pack a b) = some w from by
        simp [statsGet, List.find?_cons_of_pos, hw]]
      rw [show statsSet (w :: rest) ⟨pack a b, (some w |>.map StatsValue.count).getD 0 + 1, (a, b)⟩
          = ⟨pack a b, w.count + 1, (a, b)⟩ :: rest from by simp [statsSet, hw]]
      simp [hw]
    · rw [show statsGet (w :: rest) (pack a b) = statsGet rest (pack a b) from by
        simp [statsGet, List.find?_cons_of_neg, hw]]
      rw [show statsSet (w :: rest) ⟨pack a b, ((statsGet rest (pack a b)).map StatsValue.count).getD 0 + 1, (a, b)⟩
          = w :: statsSet rest ⟨pack a b, ((statsGet rest (pack a b)).map StatsValue.count).getD 0 + 1, (a, b)⟩ from by
        simp [statsSet, hw]]
      by_cases hg : (statsGet rest (pack a b)).isSome
      · simp only [List.map_cons, hg, if_true] at ih ⊢
        rw [ih]
      · simp only [List.map_cons, hg, if_false] at ih ⊢
        rw [ih]
        rfl

/-! ## Decode lemmas -/

theorem resolveToken_vocab (vocab ist : List (Nat × Bytes)) (t : Token) (bs : Bytes)
    (h : mapGet vocab t = some bs) : resolveToken vocab ist t = .ok bs := by
  simp [resolveToken, h]

theorem resolveToken_isOk (vocab ist : List (Nat × Bytes)) (t : Token)
    (h : (mapGet vocab t).isSome ∨ (mapGet ist t).isSome) :
    ∃ bs, resolveToken vocab ist t = .ok bs := by
  cases hv : mapGet vocab t with
  | some bs => exact ⟨bs, by simp [resolveToken, hv]⟩
  | none =>
    cases hi : mapGet ist t with
    | some bs => exact ⟨bs, by simp [resolveToken, hv, hi]⟩
    | none => simp [hv, hi] at h

theorem decodeChunk_replaceOnePass (vocab ist : List (Nat × Bytes)) (p : Token × Token) (r : Token)
    (b0 b1 : Bytes)
    (hr : resolveToken vocab ist r = .ok (b0 ++ b1))
    (h0 : resolveToken vocab ist p.1 = .ok b0)
    (h1 : resolveToken vocab ist p.2 = .ok b1) :
    ∀ tokens : List Token,
      decodeChunk vocab ist (replaceOnePass p r tokens) = decodeChunk vocab ist tokens := by
  intro tokens
  induction tokens using replaceOnePass.induct p r with
  | case1 => rfl
  | case2 a => rfl
  | case3 a b rest hab ih =>
    obtain ⟨ha, hb⟩ := hab
    subst ha hb
    rw [replaceOnePass, if_pos ⟨rfl, rfl⟩]
    cases hres : decodeChunk vocab ist rest with
    | ok l => simp [decodeChunk, hr, h0, h1, ih, hres, List.append_assoc]
    | error e => simp [decodeChunk, hr, h0, h1, ih, hres]
  | case4 a b rest hab ih =>
    rw [replaceOnePass, if_neg hab]
    cases hres : resolveToken vocab ist a with
    | ok ba => simp [decodeChunk, hres, ih]
    | error e => simp [decodeChunk, hres]

theorem decodeChunk_ok_of_resolvable (vocab ist : List (Nat × Bytes)) :
    ∀ c : List Token, (∀ t ∈ c, ∃ bs, resolveToken vocab ist t = .ok bs) →
      ∃ bs, decodeChunk vocab ist c = .ok bs := by
  intro c
  induction c with
  | nil => intro _; exact ⟨[], rfl⟩
  | cons t rest ih =>
    intro h
    obtain ⟨b, hb⟩ := h t (List.mem_cons_self _ _)
    obtain ⟨r, hrec⟩ := ih fun x hx => h x (List.mem_cons_of_mem _ hx)
    exact ⟨b ++ r, by simp [decodeChunk, hb, hrec]⟩

theorem decodeChunk_bytes (vocab ist : List (Nat × Bytes)) :
    ∀ c : List Token, (∀ t ∈ c, resolveToken vocab ist t = .ok [t]) →
      decodeChunk vocab ist c = .ok c := by
  intro c
  induction c with
  | nil => intro _; rfl
  | cons t rest ih =>
    intro h
    have hb := h t (List.mem_cons_self _ _)
    have hrec := ih fun x hx => h x (List.mem_cons_of_mem _ hx)
    simp [decodeChunk, hb, hrec]

theorem decode_map_eq (vocab ist : List (Nat × Bytes)) (f : List Token → List Token) :
    ∀ chunks : List Bytes, (∀ c ∈ chunks, decodeChunk vocab ist (f c) = .ok c) →
      decode vocab ist (chunks.map f) = .ok chunks.flatten := by
  intro chunks
  induction chunks with
  | nil => intro _; rfl
  | cons c rest ih =>
    intro h
    have hc := h c (List.mem_cons_self _ _)
    have hrec := ih fun x hx => h x (List.mem_cons_of_mem _ hx)
    simp [decode, hc, hrec]

theorem decode_ok_of_resolvable (vocab ist : List (Nat × Bytes)) :
    ∀ chunks : List (List Token),
      (∀ c ∈ chunks, ∀ t ∈ c, ∃ bs, resolveToken vocab ist t = .ok bs) →
      ∃ bs, decode vocab ist chunks = .ok bs := by
  intro chunks
  induction chunks with
  | nil => intro _; exact ⟨[], rfl⟩
  | cons c rest ih =>
    intro h
    obtain ⟨b, hb⟩ := decodeChunk_ok_of_resolvable vocab ist c (h c (List.mem_cons_self _ _))
    obtain ⟨r, hrec⟩ := ih fun x hx => h x (List.mem_cons_of_mem _ hx)
    exact ⟨b ++ r, by simp [decode, hb, hrec]⟩

/-! ## Lemmas about the encode loop -/

theorem mem_matchedMerges (merges : List Merge) :
    ∀ (pairs : List (Token × Token)) (acc : List Merge) (m : Merge),
      m ∈ pairs.foldl
        (fun acc p => acc ++ merges.filter (fun m => decide (m.2.1 = p.1) && decide (m.2.2 = p.2))) acc →
      m ∈ acc ∨ (m ∈ merges ∧ ∃ pr ∈ pairs, m.2 = pr) := by
  intro pairs
  induction pairs with
  | nil => intro acc m hm; exact Or.inl hm
  | cons p ps ih =>
    intro acc m hm
    rw [List.foldl_cons] at hm
    rcases ih _ m hm with h | h
    · rcases List.mem_append.mp h with h2 | h2
      · exact Or.inl h2
      · obtain ⟨hmem, hpred⟩ := List.mem_filter.mp h2
        simp only [Bool.and_eq_true, decide_eq_true_eq] at hpred
        refine Or.inr ⟨hmem, p, List.mem_cons_self _ _, ?_⟩
        exact Prod.ext hpred.1 hpred.2
    · obtain ⟨hmem, pr, hpr, heq⟩ := h
      exact Or.inr ⟨hmem, pr, List.mem_cons_of_mem _ hpr, heq⟩

theorem lowestMerge_some (merges : List Merge) (tokens : List Token) (m : Merge)
    (h : lowestMerge merges tokens = some m) : m ∈ merges ∧ HasPair m.2 tokens := by
  unfold lowestMerge at h
  have hmem : m ∈ sortStable (fun a b => decide (a.1 ≤ b.1))
      (matchedMerges merges (get_unique_pairs tokens)) := by
    cases hs : sortStable (fun a b => decide (a.1 ≤ b.1))
        (matchedMerges merges (get_unique_pairs tokens)) with
    | nil => rw [hs] at h; cases h
    | cons x rest =>
      rw [hs] at h
      cases h
      exact List.mem_cons_self _ _
  have hmem2 : m ∈ matchedMerges merges (get_unique_pairs tokens) :=
    (mem_sortStable _ _ m).mp hmem
  rcases mem_matchedMerges merges (get_unique_pairs tokens) [] m hmem2 with h2 | h2
  · cases h2
  · obtain ⟨hmerge, pr, hpr, heq⟩ := h2
    refine ⟨hmerge, ?_⟩
    unfold get_unique_pairs at hpr
    obtain ⟨v, hv, harr⟩ := List.mem_map.mp hpr
    rcases arr_mem_get_stats tokens [] v hv with h3 | h3
    · cases h3
    · obtain ⟨i, hi, hva⟩ := h3
      exact ⟨i, hi, by rw [heq, ← harr, hva], by rw [heq, ← harr, hva]⟩

theorem decodeChunk_encodeLoop (vocab ist : List (Nat × Bytes)) (merges : List Merge)
    (hclosed : ∀ m ∈ merges, ∃ b0 b1,
      resolveToken vocab ist m.2.1 = .ok b0 ∧ resolveToken vocab ist m.2.2 = .ok b1 ∧
      resolveToken vocab ist m.1 = .ok (b0 ++ b1)) :
    ∀ (fuel : Nat) (tokens : List Token),
      decodeChunk vocab ist (encodeLoop merges fuel tokens) = decodeChunk vocab ist tokens := by
  intro fuel
  induction fuel with
  | zero => intro tokens; rfl
  | succ fuel ih =>
    intro tokens
    cases hl : lowestMerge merges tokens with
    | none => rw [encodeLoop, hl]
    | some m =>
      rw [encodeLoop, hl, ih, replace_eq_onePass]
      obtain ⟨hmem, -⟩ := lowestMerge_some merges tokens m hl
      obtain ⟨b0, b1, h0, h1, hr⟩ := hclosed m hmem
      exact decodeChunk_replaceOnePass vocab ist m.2 m.1 b0 b1 hr h0 h1 tokens

theorem encodeLoop_tokens (merges : List Merge) :
    ∀ (fuel : Nat) (tokens : List Token) (t : Token),
      t ∈ encodeLoop merges fuel tokens → t ∈ tokens ∨ ∃ p, (t, p) ∈ merges := by
  intro fuel
  induction fuel with
  | zero => intro tokens t ht; exact Or.inl ht
  | succ fuel ih =>
    intro tokens t ht
    cases hl : lowestMerge merges tokens with
    | none => rw [encodeLoop, hl] at ht; exact Or.inl ht
    | some m =>
      rw [encodeLoop, hl] at ht
      rcases ih _ t ht with h | h
      · rw [replace_eq_onePass] at h
        rcases mem_replaceOnePass m.2 m.1 tokens t h with h2 | h2
        · obtain ⟨hmem, -⟩ := lowestMerge_some merges tokens m hl
          exact Or.inr ⟨m.2, by rw [h2]; exact hmem⟩
        · exact Or.inl h2
      · exact Or.inr h

theorem encodeLoop_fixpoint (merges : List Merge) :
    ∀ (fuel : Nat) (tokens : List Token), tokens.length ≤ fuel →
      lowestMerge merges (encodeLoop merges fuel tokens) = none := by
  intro fuel
  induction fuel with
  | zero =>
    intro tokens h
    have : tokens = [] := List.length_eq_zero.mp (by omega)
    subst this
    rfl
  | succ fuel ih =>
    intro tokens h
    cases hl : lowestMerge merges tokens with
    | none => rw [encodeLoop, hl]; exact hl
    | some m =>
      rw [encodeLoop, hl]
      apply ih
      obtain ⟨-, hpair⟩ := lowestMerge_some merges tokens m hl
      have := length_replaceOnePass_lt m.2 m.1 tokens hpair
      rw [replace_eq_onePass]
      omega

/-! ## Splice-decode lemmas -/

theorem spliceExpand_append (idx : Nat) (p : Token × Token) (xs ys : List Token) :
    spliceExpand idx p (xs ++ ys) = spliceExpand idx p xs ++ spliceExpand idx p ys := by
  induction xs with
  | nil => rfl
  | cons t rest ih => simp [spliceExpand, ih]

theorem spliceDecode_cons (m : Merge) (merges : List Merge) (toks : List Token) :
    spliceDecode (m :: merges) toks = spliceExpand m.1 m.2 (spliceDecode merges toks) := rfl

theorem spliceDecode_nil_tokens (merges : List Merge) : spliceDecode merges [] = [] := by
  induction merges with
  | nil => rfl
  | cons m rest ih => rw [spliceDecode_cons, ih]; rfl

theorem spliceDecode_token_append (merges : List Merge) (xs ys : List Token) :
    spliceDecode merges (xs ++ ys) = spliceDecode merges xs ++ spliceDecode merges ys := by
  induction merges with
  | nil => rfl
  | cons m rest ih => rw [spliceDecode_cons, ih, spliceExpand_append]; rfl

theorem spliceDecode_merge_append (m1 m2 : List Merge) (toks : List Token) :
    spliceDecode (m1 ++ m2) toks = spliceDecode m1 (spliceDecode m2 toks) :=
  List.foldr_append _ _ _ _

/-! ## The training invariant -/

/-- invariant of the training loop linking the vocabulary, the merge list,
and the reverse-splice expansion; `idx` is the next merge id. -/
structure TrainInv (idx : Nat) (st : TrainState) : Prop where
  hidx : 256 ≤ idx
  base : ∀ b, b < 256 → mapGet st.vocab b = some [b]
  keysLt : ∀ k v, mapGet st.vocab k = some v → k < idx
  keysChar : ∀ k v, mapGet st.vocab k = some v → k < 256 ∨ ∃ p, (k, p) ∈ st.merges
  closed : ∀ m ∈ st.merges, ∃ b0 b1,
    mapGet st.vocab m.2.1 = some b0 ∧ mapGet st.vocab m.2.2 = some b1 ∧
    mapGet st.vocab m.1 = some (b0 ++ b1)
  splice : ∀ t bs, mapGet st.vocab t = some bs → spliceDecode st.merges [t] = bs

theorem trainInv_init (chunks : List (List Token)) :
    TrainInv 256 { merges := [], vocab := baseVocab, chunks := chunks } := by
  refine ⟨Nat.le_refl _, ?_, ?_, ?_, ?_, ?_⟩
  · intro b hb
    show mapGet baseVocab b = some [b]
    rw [mapGet_baseVocab]
    simp [hb]
  · intro k v h
    rw [show ({ merges := [], vocab := baseVocab, chunks := chunks } : TrainState).vocab
        = baseVocab from rfl, mapGet_baseVocab] at h
    by_cases hk : k < 256
    · omega
    · simp [hk] at h
  · intro k v h
    rw [show ({ merges := [], vocab := baseVocab, chunks := chunks } : TrainState).vocab
        = baseVocab from rfl, mapGet_baseVocab] at h
    by_cases hk : k < 256
    · exact Or.inl hk
    · simp [hk] at h
  · intro m hm
    cases hm
  · intro t bs h
    rw [show ({ merges := [], vocab := baseVocab, chunks := chunks } : TrainState).vocab
        = baseVocab from rfl, mapGet_baseVocab] at h
    by_cases ht : t < 256
    · rw [if_pos ht] at h
      injection h with h
    · rw [if_neg ht] at h
      cases h

theorem trainInv_step {idx : Nat} {st : TrainState} (inv : TrainInv idx st)
    (arr : Token × Token) (left right : Bytes)
    (hleft : mapGet st.vocab arr.1 = some left)
    (hright : mapGet st.vocab arr.2 = some right) :
    TrainInv (idx + 1)
      { merges := st.merges ++ [(idx, arr)]
        vocab := mapSet st.vocab idx (left ++ right)
        chunks := st.chunks.map fun c => replace c arr idx } := by
  have hfresh : ∀ k (v : Bytes), mapGet st.vocab k = some v → ¬ k = idx := by
    intro k v h heq
    have := inv.keysLt k v h
    omega
  refine ⟨by have := inv.hidx; omega, ?_, ?_, ?_, ?_, ?_⟩
  · intro b hb
    show mapGet (mapSet st.vocab idx (left ++ right)) b = some [b]
    rw [mapGet_mapSet]
    have hb2 : ¬ b = idx := by have := inv.hidx; omega
    rw [if_neg hb2]
    exact inv.base b hb
  · intro k v h
    rw [show ∀ x, mapGet (mapSet st.vocab idx (left ++ right)) x
        = if x = idx then some (left ++ right) else mapGet st.vocab x from
      fun x => mapGet_mapSet st.vocab idx x (left ++ right)] at h
    by_cases hk : k = idx
    · omega
    · rw [if_neg hk] at h
      have := inv.keysLt k v h
      omega
  · intro k v h
    rw [show ∀ x, mapGet (mapSet st.vocab idx (left ++ right)) x
        = if x = idx then some (left ++ right) else mapGet st.vocab x from
      fun x => mapGet_mapSet st.vocab idx x (left ++ right)] at h
    by_cases hk : k = idx
    · subst hk
      exact Or.inr ⟨arr, List.mem_append.mpr (Or.inr (List.mem_cons_self _ _))⟩
    · rw [if_neg hk] at h
      rcases inv.keysChar k v h with h2 | h2
      · exact Or.inl h2
      · obtain ⟨p, hp⟩ := h2
        exact Or.inr ⟨p, List.mem_append.mpr (Or.inl hp)⟩
  · intro m hm
    rcases List.mem_append.mp hm with h | h
    · obtain ⟨b0, b1, h0, h1, hm1⟩ := inv.closed m h
      exact ⟨b0, b1,
        by rw [mapGet_mapSet, if_neg (hfresh _ _ h0)]; exact h0,
        by rw [mapGet_mapSet, if_neg (hfresh _ _ h1)]; exact h1,
        by rw [mapGet_mapSet, if_neg (hfresh _ _ hm1)]; exact hm1⟩
    · have hm2 : m = (idx, arr) := by simpa using h
      subst hm2
      exact ⟨left, right,
        by rw [mapGet_mapSet, if_neg (hfresh _ _ hleft)]; exact hleft,
        by rw [mapGet_mapSet, if_neg (hfresh _ _ hright)]; exact hright,
        by rw [mapGet_mapSet, if_pos rfl]⟩
  · intro t bs h
    rw [show mapGet (mapSet st.vocab idx (left ++ right)) t
        = if t = idx then some (left ++ right) else mapGet st.vocab t from
      mapGet_mapSet st.vocab idx t (left ++ right)] at h
    show spliceDecode (st.merges ++ [(idx, arr)]) [t] = bs
    rw [spliceDecode_merge_append]
    by_cases ht : t = idx
    · rw [if_pos ht] at h
      injection h with h
      rw [ht]
      have hinner : spliceDecode [(idx, arr)] [idx] = [arr.1] ++ [arr.2] := by
        simp [spliceDecode, spliceExpand]
      rw [hinner, spliceDecode_token_append,
        inv.splice arr.1 left hleft, inv.splice arr.2 right hright]
      exact h
    · rw [if_neg ht] at h
      have hinner : spliceDecode [(idx, arr)] [t] = [t] := by
        simp [spliceDecode, spliceExpand, ht]
      rw [hinner]
      exact inv.splice t bs h

theorem trainLoop_inv :
    ∀ (fuel idx : Nat) (st st2 : TrainState), TrainInv idx st →
      trainLoop fuel idx st = .ok st2 → ∃ idx2, TrainInv idx2 st2 := by
  intro fuel
  induction fuel with
  | zero =>
    intro idx st st2 inv h
    injection h with h
    exact ⟨idx, h ▸ inv⟩
  | succ fuel ih =>
    intro idx st st2 inv h
    rw [trainLoop] at h
    split at h
    · cases h
    · rename_i top tail htop
      split at h
      · injection h with h
        exact ⟨idx, h ▸ inv⟩
      · split at h
        · rename_i left right hleft hright
          exact ih _ _ _ (trainInv_step inv top.arr left right hleft hright) h
        · cases h

theorem train_inv (split : Bytes → List Bytes) (vs : Nat) (text : Bytes) (st : TrainState)
    (h : train split vs text = .ok st) : ∃ idx, TrainInv idx st :=
  trainLoop_inv _ _ _ _ (trainInv_init _) h

/-! ## Lemmas about special-token splitting and the full encode -/

theorem splitSpecialAux_parts (lits : List Bytes) :
    ∀ (fuel : Nat) (acc : List Nat) (text : Bytes) (part : Bytes),
      part ∈ splitSpecialAux lits fuel acc text →
      part ∈ lits ∨ ∀ b ∈ part, b ∈ acc ∨ b ∈ text := by
  intro fuel
  induction fuel with
  | zero =>
    intro acc text part hp
    have hpart : part = acc.reverse ++ text := by simpa [splitSpecialAux] using hp
    right
    intro b hb
    rcases List.mem_append.mp (hpart ▸ hb) with h | h
    · exact Or.inl (List.mem_reverse.mp h)
    · exact Or.inr h
  | succ fuel ih =>
    intro acc text part hp
    cases text with
    | nil =>
      have hpart : part = acc.reverse := by simpa [splitSpecialAux] using hp
      right
      intro b hb
      exact Or.inl (List.mem_reverse.mp (hpart ▸ hb))
    | cons c rest =>
      cases hf : findLit lits (c :: rest) with
      | some l =>
        simp only [splitSpecialAux, hf] at hp
        rcases List.mem_cons.mp hp with h | h
        · right
          intro b hb
          exact Or.inl (List.mem_reverse.mp (h ▸ hb))
        · rcases List.mem_cons.mp h with h2 | h2
          · exact Or.inl (h2 ▸ List.mem_of_find?_eq_some hf)
          · rcases ih [] _ part h2 with h3 | h3
            · exact Or.inl h3
            · right
              intro b hb
              rcases h3 b hb with h4 | h4
              · cases h4
              · exact Or.inr (List.mem_of_mem_drop h4)
      | none =>
        simp only [splitSpecialAux, hf] at hp
        rcases ih _ _ part hp with h | h
        · exact Or.inl h
        · right
          intro b hb
          rcases h b hb with h2 | h2
          · rcases List.mem_cons.mp h2 with h3 | h3
            · exact Or.inr (h3 ▸ List.mem_cons_self _ _)
            · exact Or.inl h3
          · exact Or.inr (List.mem_cons_of_mem _ h2)

theorem splitSpecial_parts (lits : List Bytes) (text : Bytes) (part : Bytes)
    (hp : part ∈ splitSpecial lits text) : part ∈ lits ∨ ∀ b ∈ part, b ∈ text := by
  rcases splitSpecialAux_parts lits (text.length + 1) [] text part hp with h | h
  · exact Or.inl h
  · right
    intro b hb
    rcases h b hb with h2 | h2
    · cases h2
    · exact h2

theorem chunksAux_sound :
    ∀ (text cur : List Nat) (c : Bytes), c ∈ chunksAux cur text → ∀ t ∈ c, t ∈ cur ∨ t ∈ text := by
  intro text
  induction text with
  | nil =>
    intro cur c hc t ht
    by_cases hce : cur.isEmpty
    · simp [chunksAux, hce] at hc
    · simp only [chunksAux, hce, if_false] at hc
      rcases List.mem_cons.mp hc with h | h
      · exact Or.inl (List.mem_reverse.mp (h ▸ ht))
      · cases h
  | cons b rest ih =>
    intro cur c hc t ht
    by_cases hw : isWS b
    · by_cases hce : cur.isEmpty
      · simp only [chunksAux, hw, hce, if_true] at hc
        rcases ih [] c hc t ht with h | h
        · cases h
        · exact Or.inr (List.mem_cons_of_mem _ h)
      · simp only [chunksAux, hw, hce, if_true, if_false] at hc
        rcases List.mem_cons.mp hc with h | h
        · exact Or.inl (List.mem_reverse.mp (h ▸ ht))
        · rcases ih [] c h t ht with h2 | h2
          · cases h2
          · exact Or.inr (List.mem_cons_of_mem _ h2)
    · simp only [chunksAux, hw, if_false] at hc
      rcases ih (b :: cur) c hc t ht with h | h
      · rcases List.mem_cons.mp h with h2 | h2
        · exact Or.inr (h2 ▸ List.mem_cons_self _ _)
        · exact Or.inl h2
      · exact Or.inr (List.mem_cons_of_mem _ h)

theorem defaultChunks_sound : ∀ (s : Bytes) (c : Bytes) (t : Nat),
    c ∈ defaultChunks s → t ∈ c → t ∈ s := by
  intro s c t hc ht
  rcases chunksAux_sound s [] c hc t ht with h | h
  · cases h
  · exact h

theorem mapGet_some_mem {κ ν : Type} [DecidableEq κ] (m : List (κ × ν)) (k : κ) (v : ν)
    (h : mapGet m k = some v) : (k, v) ∈ m := by
  unfold mapGet at h
  cases hf : m.find? (fun e => decide (e.1 = k)) with
  | none => rw [hf] at h; cases h
  | some e =>
    rw [hf] at h
    injection h with h
    have hk : e.1 = k := by simpa using List.find?_some hf
    have hmem := List.mem_of_find?_eq_some hf
    have : e = (k, v) := by
      rw [← hk, ← h]
    exact this ▸ hmem

theorem buildExplicit_subset (registered : List (Bytes × Nat)) :
    ∀ (names : List Bytes) (acc special : List (Bytes × Nat)),
      (∀ e ∈ acc, e ∈ registered) →
      buildExplicit registered acc names = .ok special →
      ∀ e ∈ special, e ∈ registered := by
  intro names
  induction names with
  | nil =>
    intro acc special hacc h
    injection h with h
    exact h ▸ hacc
  | cons name rest ih =>
    intro acc special hacc h
    cases hg : mapGet registered name with
    | none =>
      simp only [buildExplicit, hg] at h
      cases h
    | some v =>
      simp only [buildExplicit, hg] at h
      refine ih (mapSet acc name v) special ?_ h
      intro e he
      rcases mem_mapSet acc name v e he with h2 | h2
      · exact h2 ▸ mapGet_some_mem registered name v hg
      · exact hacc e h2

theorem resolveAllowed_subset (st : SpecialState) (mode : AllowedSpecial) (text : Bytes)
    (special : List (Bytes × Nat)) (h : resolveAllowed st mode text = .ok special) :
    ∀ e ∈ special, e ∈ st.special := by
  cases mode with
  | all =>
    injection h with h
    exact h ▸ fun e he => he
  | none =>
    injection h with h
    intro e he
    rw [← h] at he
    cases he
  | none_raise =>
    unfold resolveAllowed at h
    by_cases hany : st.special.any (fun tv => hasSub tv.1 text)
    · rw [if_pos hany] at h
      cases h
    · rw [if_neg hany] at h
      injection h with h
      intro e he
      rw [← h] at he
      cases he
  | explicit names =>
    exact buildExplicit_subset st.special names [] special (fun e he => absurd he (List.not_mem_nil e)) h

theorem encode_ordinary_tokens (split : Bytes → List Bytes) (merges : List Merge) (text : Bytes) :
    ∀ c ∈ encode_ordinary split merges text, ∀ t ∈ c,
      (∃ c0 ∈ split text, t ∈ c0) ∨ ∃ m ∈ merges, m.1 = t := by
  intro c hc t ht
  unfold encode_ordinary at hc
  obtain ⟨c0, hc0, heq⟩ := List.mem_map.mp hc
  by_cases hlen : c0.length < 2
  · rw [if_pos hlen] at heq
    exact Or.inl ⟨c0, hc0, heq ▸ ht⟩
  · rw [if_neg hlen] at heq
    rcases encodeLoop_tokens merges _ c0 t (heq ▸ ht) with h | h
    · exact Or.inl ⟨c0, hc0, h⟩
    · obtain ⟨p, hp⟩ := h
      exact Or.inr ⟨(t, p), hp, rfl⟩

theorem encodeParts_classify (split : Bytes → List Bytes) (merges : List Merge)
    (special : List (Bytes × Nat)) :
    ∀ (parts : List Bytes) (c : List Token), c ∈ encodeParts split merges special parts →
      (∃ part ∈ parts, mapGet special part = none ∧ c ∈ encode_ordinary split merges part)
      ∨ ∃ tid, c = [tid] ∧ ∃ e ∈ special, e.2 = tid := by
  intro parts
  induction parts with
  | nil =>
    intro c hc
    cases hc
  | cons part rest ih =>
    intro c hc
    cases hg : mapGet special part with
    | some tid =>
      simp only [encodeParts, hg] at hc
      rcases List.mem_cons.mp hc with h | h
      · right
        refine ⟨tid, h, ?_⟩
        have := mapGet_some_mem special part tid hg
        exact ⟨(part, tid), this, rfl⟩
      · rcases ih c h with h2 | h2
        · obtain ⟨p2, hp2, hnone, hcm⟩ := h2
          exact Or.inl ⟨p2, List.mem_cons_of_mem _ hp2, hnone, hcm⟩
        · exact Or.inr h2
    | none =>
      by_cases hlen : 0 < part.length
      · simp only [encodeParts, hg, hlen, if_true] at hc
        rcases List.mem_append.mp hc with h | h
        · exact Or.inl ⟨part, List.mem_cons_self _ _, hg, h⟩
        · rcases ih c h with h2 | h2
          · obtain ⟨p2, hp2, hnone, hcm⟩ := h2
            exact Or.inl ⟨p2, List.mem_cons_of_mem _ hp2, hnone, hcm⟩
          · exact Or.inr h2
      · simp only [encodeParts, hg, hlen, if_false] at hc
        rcases ih c hc with h2 | h2
        · obtain ⟨p2, hp2, hnone, hcm⟩ := h2
          exact Or.inl ⟨p2, List.mem_cons_of_mem _ hp2, hnone, hcm⟩
        · exact Or.inr h2

/-! ## Claim theorems -/

/-- C2: the claim states that a chunk of length `L` contributes one pair
count for each adjacent index pair `0 … L-2`, i.e. `L - 1` counts when
`L ≥ 2`. The code is off by one: the loop bound `i < ids.length - 2`
skips the final adjacent pair of every chunk, so `get_stats` on the
two-token chunk `[1, 2]` records nothing at all, and in general a chunk
contributes exactly `L - 2` counts (truncated subtraction). -/
theorem C2_get_stats_offByOne :
    get_stats [1, 2] [] = []
    ∧ ∀ (ids : List Token) (c : List StatsValue),
        statsTotal (get_stats ids c) = statsTotal c + (ids.length - 2) :=
  ⟨rfl, statsTotal_get_stats⟩

/-- C4: the claim states that training halts without error once the top
count drops below two, with `get_top_pairs(stats, 1)[0]` always defined.
On the four-byte corpus `aaaa` with target vocabulary size 1000, the first
iteration merges `(97, 97)` into id 256, leaving the chunk `[256, 256]`;
the second iteration finds an empty stats map (the off-by-one loop sees no
pair in a length-2 chunk), `get_top_pairs` returns an empty array, and
reading `.count` of the undefined top throws. -/
theorem C4_train_crashes_on_empty_stats :
    train defaultChunks 1000 [97, 97, 97, 97]
      = .error "TypeError: Cannot read properties of undefined (reading count)" := rfl

/-- C6: `replace` rewrites the token list in a single left-to-right
non-overlapping pass: at each position, if the next two tokens equal the
pair they are replaced by `r` and the scan advances past both, so a token
consumed by a replacement is never reused as the left half of the next
match; in particular `[a, a, a]` with pair `(a, a)` becomes `[r, a]`. -/
theorem C6_replace_single_pass :
    (∀ (tokens : List Token) (p : Token × Token) (r : Token),
      replace tokens p r = replaceOnePass p r tokens)
    ∧ ∀ a r : Token, replace [a, a, a] (a, a) r = [r, a] := by
  refine ⟨replace_eq_onePass, fun a r => ?_⟩
  rw [replace_eq_onePass]
  simp [replaceOnePass]

/-- C8: the claim states that after `register_special_tokens(t)` the
inverse map holds exactly the inverted entries of `t`. The source never
clears the inverse map, so re-registering with an empty table leaves the
forward map empty while the five stale inverse entries of the previously
registered default table (e.g. id 100257) survive. -/
theorem C8_stale_inverse_after_reregistration :
    (register_special_tokens (register_special_tokens ⟨[], []⟩ DEFAULT_ALLOWED_SPECIAL) []).special = []
    ∧ mapGet (register_special_tokens
        (register_special_tokens ⟨[], []⟩ DEFAULT_ALLOWED_SPECIAL) []).ist 100257
      = some (strBytes "<|endoftext|>") :=
  ⟨rfl, rfl⟩

/-- C7: with the default special-token table registered, encoding the text
consisting of the literal end-of-text marker in mode `all` yields exactly
one chunk holding the reserved id 100257, and mode `none_raise` on the
same text throws, for every chunking function and merge table. -/
theorem C7_special_token_priority :
    ∀ (split : Bytes → List Bytes) (merges : List Merge),
      encode split merges (register_special_tokens ⟨[], []⟩ DEFAULT_ALLOWED_SPECIAL) .all
          (strBytes "<|endoftext|>") = .ok [[100257]]
      ∧ encode split merges (register_special_tokens ⟨[], []⟩ DEFAULT_ALLOWED_SPECIAL) .none_raise
          (strBytes "<|endoftext|>")
        = .error "Special token found in text, but allowed_special is none_raise" :=
  fun _ _ => ⟨rfl, rfl⟩

/-- C1 counterexample: the claim asserts the round trip for every trained
tokenizer and every text. A tokenizer trained with the default pattern
`/\S+/g` (training text `abc`, vocabulary size 257) drops the whitespace
of `a b` (bytes `[97, 32, 98]`) during chunking, so decode of the encoding
returns `ab` (bytes `[97, 98]`), not the original text. -/
theorem C1_roundtrip_counterexample :
    (train defaultChunks 257 [97, 98, 99]).map
        (fun st => decode st.vocab [] (encode_ordinary defaultChunks st.merges [97, 32, 98]))
      = .ok (.ok [97, 98])
    ∧ [97, 98] ≠ [97, 32, 98] :=
  ⟨rfl, by decide⟩

/-- C1 (amended): for every trained tokenizer whose pre-tokenization
pattern covers the text — the concatenation of the regex matches
equals the text byte-for-byte — `decode (encode_ordinary T)` returns `T`
exactly, including the empty string and single-character strings below
the two-token merge threshold. -/
theorem C1_roundtrip_of_covering :
    ∀ (split : Bytes → List Bytes) (vs : Nat) (text : Bytes) (st : TrainState)
      (ist : List (Nat × Bytes)),
      train split vs text = .ok st →
      ∀ T : Bytes, (∀ b ∈ T, b < 256) → (split T).flatten = T →
        decode st.vocab ist (encode_ordinary split st.merges T) = .ok T := by
  intro split vs text st ist htrain T hbytes hcover
  obtain ⟨idx, inv⟩ := train_inv split vs text st htrain
  have hclosed : ∀ m ∈ st.merges, ∃ b0 b1,
      resolveToken st.vocab ist m.2.1 = .ok b0 ∧ resolveToken st.vocab ist m.2.2 = .ok b1 ∧
      resolveToken st.vocab ist m.1 = .ok (b0 ++ b1) := by
    intro m hm
    obtain ⟨b0, b1, h0, h1, hm1⟩ := inv.closed m hm
    exact ⟨b0, b1, resolveToken_vocab _ _ _ _ h0, resolveToken_vocab _ _ _ _ h1,
      resolveToken_vocab _ _ _ _ hm1⟩
  unfold encode_ordinary
  conv_rhs => rw [← hcover]
  apply decode_map_eq
  intro c hc
  have hcbytes : ∀ t ∈ c, resolveToken st.vocab ist t = .ok [t] := by
    intro t htc
    have htT : t ∈ T := by
      rw [← hcover]
      exact List.mem_flatten.mpr ⟨c, hc, htc⟩
    exact resolveToken_vocab _ _ _ _ (inv.base t (hbytes t htT))
  by_cases hlen : c.length < 2
  · rw [if_pos hlen]
    exact decodeChunk_bytes _ _ c hcbytes
  · rw [if_neg hlen]
    rw [decodeChunk_encodeLoop _ _ _ hclosed]
    exact decodeChunk_bytes _ _ c hcbytes

/-- C1 witness: the round-trip theorem applied to the tokenizer trained on
`abc` with vocabulary size 257 and the covered text `ab`. -/
theorem C1_roundtrip_witness :
    decode (TrainState.mk [] baseVocab [[97, 98, 99]]).vocab []
        (encode_ordinary defaultChunks (TrainState.mk [] baseVocab [[97, 98, 99]]).merges [97, 98])
      = .ok [97, 98] :=
  C1_roundtrip_of_covering defaultChunks 257 [97, 98, 99]
    (TrainState.mk [] baseVocab [[97, 98, 99]]) [] rfl [97, 98] (by decide) (by decide)

/-- C3: the claim states that re-encoding the training text reproduces the
chunk state held at the end of training. Training on `xyxyz wxy` with
vocabulary size 257 learns the merge `(120, 121) → 256` (count 2, found in
the first chunk) and rewrites both chunks, ending with
`[[256, 256, 122], [119, 256]]`; but re-encoding the same text leaves the
second chunk `wxy` untouched — its only occurrence of the learned pair
sits at the final two positions, which the off-by-one pair discovery of
`get_stats` never reports — yielding `[[256, 256, 122], [119, 120, 121]]`. -/
theorem C3_reencode_differs_from_training_state :
    (train defaultChunks 257 [120, 121, 120, 121, 122, 32, 119, 120, 121]).map
        (fun st => (st.chunks,
          encode_ordinary defaultChunks st.merges [120, 121, 120, 121, 122, 32, 119, 120, 121]))
      = .ok ([[256, 256, 122], [119, 256]], [[256, 256, 122], [119, 120, 121]]) := rfl

/-- C5: when `get_top_pairs` selects the top pair, the winner is the first
entry of the stats map attaining the maximal count — first-seen discovery
order, as preserved by map insertion order under a stable
descending-count sort — never a pair chosen by its numeric value; and
`get_stats` insertion keeps existing keys in place and appends fresh keys,
so the map order is discovery order. -/
theorem C5_tie_break_first_seen :
    (∀ counts : List StatsValue, counts ≠ [] →
      ∃ v, get_top_pairs counts 1 = [v]
        ∧ counts.find? (fun w => decide (maxKey StatsValue.count counts ≤ w.count)) = some v)
    ∧ ∀ (c : List StatsValue) (a b : Token),
        (statsAdd c a b).map StatsValue.packed
          = if (statsGet c (pack a b)).isSome then c.map StatsValue.packed
            else c.map StatsValue.packed ++ [pack a b] := by
  constructor
  · intro counts hne
    have hlen : (sortStable (fun a b => decide (b.count ≤ a.count)) counts).length
        = counts.length := length_sortStable _ _
    cases hs : sortStable (fun a b => decide (b.count ≤ a.count)) counts with
    | nil =>
      rw [hs] at hlen
      exact absurd (List.length_eq_zero.mp hlen.symm) hne
    | cons v rest =>
      refine ⟨v, ?_, ?_⟩
      · unfold get_top_pairs
        rw [hs]
        rfl
      · have h2 := head_sortStable_eq_firstMax StatsValue.count counts
        rw [hs] at h2
        exact h2.symm
  · exact statsKeys_statsAdd

/-- C5 witness: two pairs tied at count 2; the first-inserted pair wins. -/
theorem C5_tie_break_witness :
    ∃ v, get_top_pairs [⟨pack 1 2, 2, (1, 2)⟩, ⟨pack 3 4, 2, (3, 4)⟩] 1 = [v]
      ∧ ([⟨pack 1 2, 2, (1, 2)⟩, ⟨pack 3 4, 2, (3, 4)⟩] : List StatsValue).find?
          (fun w => decide (maxKey StatsValue.count
            [⟨pack 1 2, 2, (1, 2)⟩, ⟨pack 3 4, 2, (3, 4)⟩] ≤ w.count)) = some v :=
  C5_tie_break_first_seen.1 _ (by decide)

/-- C9: for every merge table produced by training and every token list
whose ids are base bytes or learned merge ids of that table, the
reverse-merge-splicing decode (newest merge spliced first) produces
exactly the bytes of the precomputed-vocabulary decode. -/
theorem C9_splice_decode_matches_vocab_decode :
    ∀ (split : Bytes → List Bytes) (vs : Nat) (text : Bytes) (st : TrainState),
      train split vs text = .ok st →
      ∀ tokens : List Token, (∀ t ∈ tokens, t < 256 ∨ ∃ m ∈ st.merges, m.1 = t) →
        decodeVocab st.vocab tokens = .ok (spliceDecode st.merges tokens) := by
  intro split vs text st htrain tokens hval
  obtain ⟨idx, inv⟩ := train_inv split vs text st htrain
  induction tokens with
  | nil => rw [spliceDecode_nil_tokens]; rfl
  | cons t rest ih =>
    have hres : ∃ bs, mapGet st.vocab t = some bs := by
      rcases hval t (List.mem_cons_self _ _) with h | h
      · exact ⟨[t], inv.base t h⟩
      · obtain ⟨m, hm, hmt⟩ := h
        obtain ⟨b0, b1, -, -, hmm⟩ := inv.closed m hm
        exact ⟨b0 ++ b1, hmt ▸ hmm⟩
    obtain ⟨bs, hbs⟩ := hres
    have ihh := ih (fun x hx => hval x (List.mem_cons_of_mem _ hx))
    have hstep : spliceDecode st.merges (t :: rest) = bs ++ spliceDecode st.merges rest := by
      rw [show (t :: rest : List Token) = [t] ++ rest from rfl, spliceDecode_token_append,
        inv.splice t bs hbs]
    rw [hstep]
    simp [decodeVocab, hbs, ihh]

/-- C9 witness: the tokenizer trained on `aaaaa` (one merge, id 256); the
token list `[256, 97]` decodes to `aaa` under both strategies. -/
theorem C9_splice_decode_witness :
    decodeVocab (TrainState.mk [(256, (97, 97))] (mapSet baseVocab 256 [97, 97]) [[256, 256, 97]]).vocab
        [256, 97]
      = .ok (spliceDecode (TrainState.mk [(256, (97, 97))] (mapSet baseVocab 256 [97, 97])
          [[256, 256, 97]]).merges [256, 97]) :=
  C9_splice_decode_matches_vocab_decode defaultChunks 257 [97, 97, 97, 97, 97]
    (TrainState.mk [(256, (97, 97))] (mapSet baseVocab 256 [97, 97]) [[256, 256, 97]])
    rfl [256, 97] (by decide)

/-- C10: every token id emitted by `encode` (any mode) or
`encode_ordinary` of a trained tokenizer is a base byte, a learned merge
id, or a registered special-token id, and consequently `decode` applied
to any successful encoder output never reaches the unknown-token error. -/
theorem C10_encoder_output_always_decodes :
    ∀ (split : Bytes → List Bytes) (vs : Nat) (text : Bytes) (st : TrainState),
      train split vs text = .ok st →
      (∀ (s c : Bytes) (t : Nat), c ∈ split s → t ∈ c → t ∈ s) →
      ∀ (special : List (Bytes × Nat)) (ist : List (Nat × Bytes)),
        (∀ e ∈ special, (mapGet ist e.2).isSome) →
        ∀ (mode : AllowedSpecial) (T : Bytes) (out : List (List Token)),
          (∀ b ∈ T, b < 256) →
          encode split st.merges ⟨special, ist⟩ mode T = .ok out →
          (∀ c ∈ out, ∀ t ∈ c,
            (t < 256 ∨ ∃ m ∈ st.merges, m.1 = t) ∨ ∃ e ∈ special, e.2 = t)
          ∧ ∃ bs, decode st.vocab ist out = .ok bs := by
  intro split vs text st htrain hsplit special ist hist mode T out hT henc
  obtain ⟨idx, inv⟩ := train_inv split vs text st htrain
  have hord : ∀ S : Bytes, (∀ b ∈ S, b < 256) →
      ∀ c ∈ encode_ordinary split st.merges S, ∀ t ∈ c,
      t < 256 ∨ ∃ m ∈ st.merges, m.1 = t := by
    intro S hS c hc t ht
    rcases encode_ordinary_tokens split st.merges S c hc t ht with h | h
    · obtain ⟨c0, hc0, htc0⟩ := h
      exact Or.inl (hS t (hsplit S c0 t hc0 htc0))
    · exact Or.inr h
  have hclass : ∀ c ∈ out, ∀ t ∈ c,
      (t < 256 ∨ ∃ m ∈ st.merges, m.1 = t) ∨ ∃ e ∈ special, e.2 = t := by
    intro c hc t ht
    cases hra : resolveAllowed ⟨special, ist⟩ mode T with
    | error e =>
      simp only [encode, hra] at henc
      cases henc
    | ok sp =>
      simp only [encode, hra] at henc
      have hsub : ∀ e ∈ sp, e ∈ special := resolveAllowed_subset _ _ _ _ hra
      by_cases hmt : sp.isEmpty
      · rw [if_pos hmt] at henc
        injection henc with henc
        exact Or.inl (hord T hT c (henc ▸ hc) t ht)
      · rw [if_neg hmt] at henc
        injection henc with henc
        rcases encodeParts_classify split st.merges sp _ c (henc ▸ hc) with h | h
        · obtain ⟨part, hpart, hnone, hcm⟩ := h
          rcases splitSpecial_parts (sp.map Prod.fst) T part hpart with h2 | h2
          · obtain ⟨e, he, heq⟩ := List.mem_map.mp h2
            have hsome := mapGet_isSome_of_mem sp e he
            rw [heq, hnone] at hsome
            cases hsome
          · have hpb : ∀ b ∈ part, b < 256 := fun b hb => hT b (h2 b hb)
            exact Or.inl (hord part hpb c hcm t ht)
        · obtain ⟨tid, hctid, e, he, hetid⟩ := h
          have ht2 : t = tid := by
            rw [hctid] at ht
            simpa using ht
          exact Or.inr ⟨e, hsub e he, by rw [hetid, ht2]⟩
  refine ⟨hclass, ?_⟩
  apply decode_ok_of_resolvable
  intro c hc t ht
  rcases hclass c hc t ht with h | h
  · rcases h with h2 | h2
    · exact resolveToken_isOk _ _ _ (Or.inl (by rw [inv.base t h2]; rfl))
    · obtain ⟨m, hm, hmt⟩ := h2
      obtain ⟨b0, b1, -, -, hmm⟩ := inv.closed m hm
      exact resolveToken_isOk _ _ _ (Or.inl (by rw [← hmt, hmm]; rfl))
  · obtain ⟨e, he, het⟩ := h
    exact resolveToken_isOk _ _ _ (Or.inr (het ▸ hist e he))

/-- C10 witness: the tokenizer trained on `aaaaa`, the default special
table with its derived inverse map, mode `all`, and the text `aa`. -/
theorem C10_encoder_output_witness :
    (∀ c ∈ [[97, 97]], ∀ t ∈ c,
      ((t : Nat) < 256
        ∨ ∃ m ∈ (TrainState.mk [(256, (97, 97))] (mapSet baseVocab 256 [97, 97])
            [[256, 256, 97]]).merges, m.1 = t)
      ∨ ∃ e ∈ DEFAULT_ALLOWED_SPECIAL, e.2 = t)
    ∧ ∃ bs, decode (TrainState.mk [(256, (97, 97))] (mapSet baseVocab 256 [97, 97])
        [[256, 256, 97]]).vocab
        (register_special_tokens ⟨[], []⟩ DEFAULT_ALLOWED_SPECIAL).ist [[97, 97]] = .ok bs :=
  C10_encoder_output_always_decodes defaultChunks 257 [97, 97, 97, 97, 97]
    (TrainState.mk [(256, (97, 97))] (mapSet baseVocab 256 [97, 97]) [[256, 256, 97]])
    rfl defaultChunks_sound DEFAULT_ALLOWED_SPECIAL
    (register_special_tokens ⟨[], []⟩ DEFAULT_ALLOWED_SPECIAL).ist (by decide)
    .all [97, 97] [[97, 97]] (by decide) rfl

end BPE
